import Mathlib

/-!
Verification of the erg type-inference core (free-variable cells, constraints,
levels) and the method-linking pass, shallowly embedded from
`src/crates/erg_compiler/ty/free.rs`, `src/compiler/erg_compiler/link.rs` and
`src/crates/erg_compiler/error/lower.rs`.

Modelling conventions:
- Shared interior-mutable cells (`Free<T>` = `Shared<FreeKind<T>>`) are
  modelled by an explicit store mapping addresses to `FreeKind` values;
  operations thread the store.
- `usize` is modelled as `Nat`; the one place where overflow is observable
  (the thread-local unbound-id counter, incremented with `+= 1`) is modelled
  with the checked-arithmetic panic (`Option`).
- Traversals that terminate in the source via the forced-undoable-link
  cycle-breaking protocol are written with an explicit fuel parameter;
  exhausted fuel yields `none`.
- The `addr_eq!` macro of `erg_common` (its source is not in scope) compares
  the addresses of its two operands.  At the sites where one operand is a
  freshly moved by-value argument (`force_replace`, `replace`,
  `update_constraint`), an address match can only mean the two places hold
  the identical value, and then the guarded early return and the overwrite
  produce the same cell contents; those guards are therefore modelled as
  unconditional writes.  At `set_level` the guard is modelled from the spec
  ("short-circuiting on cells already at `l`") as value equality of levels.
  At `undoable_link` the operand genuinely aliases the cell, so the guard's
  outcome is an oracle `Bool` parameter (irrelevant for unbound cells, where
  `is_linked` short-circuits the conjunction).
-/

/-- Levels are binding depths (`pub type Level = usize`). -/
abbrev Level := Nat

/-- Largest `usize` value on the 64-bit targets the compiler builds for. -/
def USIZE_MAX : Nat := 2 ^ 64 - 1

/-- Sentinel level marking generalized variables (`GENERIC_LEVEL = usize::MAX`). -/
def GENERIC_LEVEL : Level := USIZE_MAX

/-- Addresses of free-variable cells in the modelled store. -/
abbrev Addr := Nat

mutual
/-- The type term graph (`Type` of `ty/mod.rs`), restricted to the variants the
claims exercise: the distinguished constants `Never`, `Obj` and `Type`, nominal
polymorphic types with type-parameter arguments, and free-variable cells
(referenced through the store by address).  The remaining variants play no role
in the verified operations. -/
inductive Ty where
  | never : Ty
  | obj : Ty
  | type' : Ty
  | poly (name : String) (params : List TyP) : Ty
  | freeVar (a : Addr) : Ty

/-- Type-parameter terms (`TyParam`), restricted to the carrier of a type
(`TyParam::t`, built by `ty_tp`) and value literals. -/
inductive TyP where
  | typ (t : Ty) : TyP
  | value (n : Nat) : TyP
end

/-- Structural test for the distinguished constant `Type::Type`, the only
form of `Type`'s equality the verified constraint constructors consult
(`t == Type::Type` in `Constraint::new_type_of`). -/
def Ty.isTypeTy : Ty → Bool
  | .type' => true
  | _ => false

/-- Constraints on type variables (`Constraint` in `free.rs`): sandwich bounds
`sub :> ? <: sup`, a carrier type, or the two-phase-construction placeholder. -/
inductive Constraint where
  | sandwiched (sub : Ty) (sup : Ty) : Constraint
  | typeOf (t : Ty) : Constraint
  | uninited : Constraint

namespace Constraint

/-- Constructor `Constraint::new_sandwiched`. -/
def newSandwiched (sub sup : Ty) : Constraint := .sandwiched sub sup

/-- Constructor `Constraint::new_type_of`: canonicalises `TypeOf(Type)` to the
fully open sandwich `Sandwiched { Never, Obj }`. -/
def newTypeOf (t : Ty) : Constraint :=
  if t.isTypeTy then newSandwiched Ty.never Ty.obj else .typeOf t

/-- Constructor `Constraint::new_subtype_of`. -/
def newSubtypeOf (sup : Ty) : Constraint := newSandwiched Ty.never sup

/-- Constructor `Constraint::new_supertype_of`. -/
def newSupertypeOf (sub : Ty) : Constraint := newSandwiched sub Ty.obj

/-- Predicate `Constraint::is_uninited`. -/
def isUninited : Constraint → Bool
  | .uninited => true
  | _ => false

/-- Accessor `Constraint::get_type`: `Some` for `TypeOf` and for the degenerate
sandwich `Sandwiched { sub: Never, sup: Obj }`, which yields `Type`. -/
def getType : Constraint → Option Ty
  | .typeOf t => some t
  | .sandwiched .never .obj => some Ty.type'
  | _ => none

/-- Accessor `Constraint::get_sub`. -/
def getSub : Constraint → Option Ty
  | .sandwiched sub _ => some sub
  | _ => none

/-- Accessor `Constraint::get_super`. -/
def getSuper : Constraint → Option Ty
  | .sandwiched _ sup => some sup
  | _ => none

/-- Accessor `Constraint::get_sub_sup`. -/
def getSubSup : Constraint → Option (Ty × Ty)
  | .sandwiched sub sup => some (sub, sup)
  | _ => none

end Constraint

/-- Cell states (`FreeKind<T>` in `free.rs`): definitively linked, speculatively
linked with the full prior state captured for `undo`, or unbound
(anonymous with a fresh id, or named). -/
inductive FreeKind (T : Type) where
  | linked (t : T) : FreeKind T
  | undoableLinked (t : T) (previous : FreeKind T) : FreeKind T
  | unbound (id : Nat) (lev : Level) (constraint : Constraint) : FreeKind T
  | namedUnbound (name : String) (lev : Level) (constraint : Constraint) : FreeKind T

namespace FreeKind

/-- Inspector `Free::is_linked`: true for `Linked` and `UndoableLinked`. -/
def isLinked : FreeKind T → Bool
  | .linked _ | .undoableLinked _ _ => true
  | _ => false

/-- Inspector `Free::is_undoable_linked`. -/
def isUndoableLinked : FreeKind T → Bool
  | .undoableLinked _ _ => true
  | _ => false

/-- Inspector `Free::is_unbound`: true for `Unbound` and `NamedUnbound`. -/
def isUnbound : FreeKind T → Bool
  | .unbound _ _ _ | .namedUnbound _ _ _ => true
  | _ => false

/-- Accessor `Free::crack` (total form): the term behind a linked cell, `none`
where the source panics with "the value is unbounded". -/
def crack? : FreeKind T → Option T
  | .linked t | .undoableLinked t _ => some t
  | _ => none

/-- Operation `Free::undoable_link(to)`: panics ("link to self", modelled as
`none`) when the cell is linked and the linked term is address-identical to
the target; `selfAddr` is the oracle outcome of that `addr_eq!` comparison,
which is only consulted when `is_linked` holds.  Otherwise the cell becomes
`UndoableLinked` with the full prior state captured. -/
def undoableLink (selfAddr : Bool) (tgt : T) (k : FreeKind T) : Option (FreeKind T) :=
  if k.isLinked && selfAddr then none
  else some (.undoableLinked tgt k)

/-- Operation `Free::undo`: restores `previous` on an `UndoableLinked` cell and
panics ("cannot undo", modelled as `none`) on every other state.  The
`force_replace` write it performs is unconditional (see the `addr_eq!` note in
the file header). -/
def undo : FreeKind T → Option (FreeKind T)
  | .undoableLinked _ previous => some previous
  | _ => none

/-- Operation `Free::update_constraint(new_constraint, in_inst_or_gen)`
restricted to the cell itself; linked cells forward to the pointed term and are
handled by the store-level function below.  On an unbound cell at
`GENERIC_LEVEL`, the update is rejected (log and return) unless
`in_inst_or_gen` is set; otherwise the constraint is overwritten in place. -/
def updateConstraintLocal (newc : Constraint) (inInstOrGen : Bool) :
    FreeKind T → FreeKind T
  | .unbound id lev c =>
      if !inInstOrGen && lev = GENERIC_LEVEL then .unbound id lev c
      else .unbound id lev newc
  | .namedUnbound name lev c =>
      if !inInstOrGen && lev = GENERIC_LEVEL then .namedUnbound name lev c
      else .namedUnbound name lev newc
  | k => k

end FreeKind

/-- Allocation `Free::new_unbound(level, constraint)`: increments the
thread-local `UNBOUND_ID` counter, then mints the cell with the incremented
value as its id.  The `usize` increment is modelled with the checked-overflow
panic, so the call also returns the new counter value. -/
def newUnbound (ctr : Nat) (lev : Level) (c : Constraint) :
    Option (FreeKind Ty × Nat) :=
  if ctr < USIZE_MAX then some (.unbound (ctr + 1) lev c, ctr + 1) else none

/-- Run a sequence of `new_unbound` calls on one thread, threading the
counter; `none` if any increment overflows. -/
def newUnboundRun (ctr : Nat) : List (Level × Constraint) →
    Option (List (FreeKind Ty) × Nat)
  | [] => some ([], ctr)
  | (lev, c) :: rest =>
    match newUnbound ctr lev c with
    | none => none
    | some (k, ctr') =>
      match newUnboundRun ctr' rest with
      | none => none
      | some (ks, final) => some (k :: ks, final)

/-- Read the minted id of a cell produced by `new_unbound`. -/
def mintedId : FreeKind Ty → Nat
  | .unbound id _ _ => id
  | _ => 0

/-- Helper: a successful run of `new_unbound` calls starting at counter `ctr`
mints exactly the ids `ctr+1, ctr+2, …` in order. -/
theorem newUnboundRun_ids (args : List (Level × Constraint)) :
    ∀ ctr ks final, newUnboundRun ctr args = some (ks, final) →
      ks.map mintedId = List.range' (ctr + 1) args.length := by
  induction args with
  | nil =>
      intro ctr ks final h
      simp only [newUnboundRun, Option.some_inj] at h
      obtain ⟨hks, _⟩ := Prod.mk.inj h
      simp [← hks]
  | cons hd tl ih =>
      intro ctr ks final h
      obtain ⟨lev, c⟩ := hd
      simp only [newUnboundRun, newUnbound] at h
      by_cases hc : ctr < USIZE_MAX
      · simp only [if_pos hc] at h
        cases hrec : newUnboundRun (ctr + 1) tl with
        | none => rw [hrec] at h; exact absurd h (by simp)
        | some p =>
            obtain ⟨ks', final'⟩ := p
            rw [hrec] at h
            simp only [Option.some_inj] at h
            obtain ⟨hks, _⟩ := Prod.mk.inj h
            rw [← hks]
            simp only [List.map_cons, mintedId, List.length_cons, List.range'_succ]
            rw [ih (ctr + 1) ks' final' hrec]
      · simp [if_neg hc] at h

/-- Claim C1.  For every cell in an `Unbound` or `NamedUnbound` state and every
term `t`, `undoable_link(t)` succeeds (no "link to self" panic, whatever the
address oracle says, since the cell is not linked), leaves the cell with
`is_linked` and `is_undoable_linked` true, and one `undo` returns the cell to a
state structurally equal to the pre-state, original id/name, level and
constraint included. -/
theorem undoable_link_then_undo_roundtrip {T : Type} (k : FreeKind T) (t : T)
    (selfAddr : Bool) (hk : k.isUnbound = true) :
    k.undoableLink selfAddr t = some (.undoableLinked t k) ∧
    (FreeKind.undoableLinked t k).isLinked = true ∧
    (FreeKind.undoableLinked t k).isUndoableLinked = true ∧
    (FreeKind.undoableLinked t k).undo = some k := by
  refine ⟨?_, rfl, rfl, rfl⟩
  cases k with
  | linked _ => simp [FreeKind.isUnbound] at hk
  | undoableLinked _ _ => simp [FreeKind.isUnbound] at hk
  | unbound id lev c => simp [FreeKind.undoableLink, FreeKind.isLinked]
  | namedUnbound n lev c => simp [FreeKind.undoableLink, FreeKind.isLinked]

/-- Witness for C1 at a concrete unbound cell and term. -/
theorem undoable_link_then_undo_roundtrip_witness :
    (FreeKind.unbound 1 0 Constraint.uninited : FreeKind Ty).undoableLink true Ty.never =
      some (.undoableLinked Ty.never (.unbound 1 0 Constraint.uninited)) ∧
    (FreeKind.undoableLinked Ty.never
      (.unbound 1 0 Constraint.uninited) : FreeKind Ty).isLinked = true ∧
    (FreeKind.undoableLinked Ty.never
      (.unbound 1 0 Constraint.uninited) : FreeKind Ty).isUndoableLinked = true ∧
    (FreeKind.undoableLinked Ty.never
      (.unbound 1 0 Constraint.uninited) : FreeKind Ty).undo =
      some (.unbound 1 0 Constraint.uninited) :=
  undoable_link_then_undo_roundtrip (.unbound 1 0 Constraint.uninited) Ty.never true rfl

/-- Claim C6.  `Constraint::new_type_of(Type)` canonicalises to the degenerate
sandwich `Sandwiched { Never, Obj }` rather than `TypeOf(Type)`, `get_type` on
that sandwich yields `Some(Type)`, and consequently
`new_type_of(t).get_type() = Some(t)` for every type `t`. -/
theorem new_type_of_get_type_roundtrip :
    Constraint.newTypeOf Ty.type' = Constraint.sandwiched Ty.never Ty.obj ∧
    (Constraint.sandwiched Ty.never Ty.obj).getType = some Ty.type' ∧
    ∀ t : Ty, (Constraint.newTypeOf t).getType = some t := by
  refine ⟨rfl, rfl, ?_⟩
  intro t
  cases t <;> rfl

/-- Claim C8.  Every `new_unbound` call increments the thread-local counter
before minting, so a successful sequence of calls starting at counter `ctr`
returns cells whose ids are exactly `ctr+1, ctr+2, …`: pairwise distinct,
strictly increasing, and never reusing an id already minted (all ids exceed
`ctr`, the largest previously used value). -/
theorem new_unbound_ids_fresh (ctr : Nat) (args : List (Level × Constraint))
    (ks : List (FreeKind Ty)) (final : Nat)
    (h : newUnboundRun ctr args = some (ks, final)) :
    ks.map mintedId = List.range' (ctr + 1) args.length ∧
    (ks.map mintedId).Pairwise (· < ·) ∧
    (ks.map mintedId).Nodup ∧
    ∀ i ∈ ks.map mintedId, ctr < i := by
  have hids := newUnboundRun_ids args ctr ks final h
  refine ⟨hids, ?_, ?_, ?_⟩
  · rw [hids]
    exact List.pairwise_lt_range' (ctr + 1) args.length
  · rw [hids]
    exact List.nodup_range' _ _
  · intro i hi
    rw [hids] at hi
    have := List.mem_range'.mp hi
    omega

/-- Witness for C8 on a concrete three-call run. -/
theorem new_unbound_ids_fresh_witness :
    ([FreeKind.unbound 1 0 Constraint.uninited,
      FreeKind.unbound 2 0 Constraint.uninited,
      FreeKind.unbound 3 1 Constraint.uninited].map mintedId =
        List.range' 1 3) ∧
    ([FreeKind.unbound 1 0 Constraint.uninited,
      FreeKind.unbound 2 0 Constraint.uninited,
      FreeKind.unbound 3 1 Constraint.uninited].map mintedId).Pairwise (· < ·) ∧
    ([FreeKind.unbound 1 0 Constraint.uninited,
      FreeKind.unbound 2 0 Constraint.uninited,
      FreeKind.unbound 3 1 Constraint.uninited].map mintedId).Nodup ∧
    ∀ i ∈ ([FreeKind.unbound 1 0 Constraint.uninited,
      FreeKind.unbound 2 0 Constraint.uninited,
      FreeKind.unbound 3 1 Constraint.uninited].map mintedId), 0 < i :=
  new_unbound_ids_fresh 0
    [(0, Constraint.uninited), (0, Constraint.uninited), (1, Constraint.uninited)]
    _ 3 rfl

/-!
The method linker (`src/compiler/erg_compiler/link.rs`).  The AST structures
it consumes come from `erg_parser::ast` (not in scope); they are modelled from
the spec and from the fields the linker reads: a definition has an optional
signature identifier and a body block, a call has the optional name of its
callee, a `Methods` block carries a type spec and its attribute definitions,
and `ClassDef::new(def, vec![])` wraps a whole definition together with a list
of absorbed `Methods` blocks.  Remaining item forms are opaque to the pass and
are collapsed into a tagged `other` constructor.
-/

/-- Type specifications as the linker distinguishes them: a simple
pre-declared name (`TypeSpec::PreDeclTy(PreDeclTypeSpec::Simple(_))`, carrying
its source location), or any other shape (which the pass leaves to `todo!`). -/
inductive TypeSpec where
  | preDeclSimple (name : String) (loc : Nat) : TypeSpec
  | otherSpec (loc : Nat) : TypeSpec

/-- Location accessor (`Locational::loc`) for a type spec. -/
def TypeSpec.loc : TypeSpec → Nat
  | .preDeclSimple _ l => l
  | .otherSpec l => l

/-- Top-level AST items, modelled from the fields `Linker::link` consumes. -/
inductive Expr where
  | def_ (sigName : Option String) (body : List Expr) : Expr
  | call (objName : Option String) (args : List Expr) : Expr
  | methods (tspec : TypeSpec) (attrs : List Expr) : Expr
  | classDef (sigName : Option String) (body : List Expr)
      (methodsList : List (TypeSpec × List Expr)) : Expr
  | other (tag : Nat) : Expr

/-- Diagnostic kinds used by this core (`ErrorKind`); the declaration-file
kind is omitted because the linker never produces it. -/
inductive ErrKind where
  | nameError | typeError | attributeError | assignError
  | visibilityError | inheritanceError | importError | ioError
  | unusedWarning | typeWarning | nameWarning

/-- One structured diagnostic, keeping the fields the claims observe: kind,
location (also the location of the single sub-message) and hint.  Styling,
localization variants other than the english text, and the error number are
presentation-only and are not modelled. -/
structure Diag where
  kind : ErrKind
  loc : Nat
  desc : String
  hint : Option String

/-- Name demangler `readable_name` (`erg_common`, not in scope): the identity
on the plain user-visible names the linker passes to it. -/
def readableName (name : String) : String := name

/-- Constructor `LowerError::no_var_error`: a `NameError` at `loc` whose
optional hint wraps the caller-supplied similar-name text (english branch of
`switch_lang!`; colors and attributes dropped). -/
def noVarError (loc : Nat) (name : String) (similarName : Option String) : Diag :=
  { kind := .nameError, loc := loc,
    desc := readableName name ++ " is not defined",
    hint := similarName.map (fun n => "exists a similar name variable: " ++ n) }

/-- The linker's `def_root_pos_map : Dict<Str, usize>` modelled as an
insertion-ordered association list (the `Dict` source is not in scope; only
`insert`, `get` and `keys` are used). -/
abbrev PosMap := List (String × Nat)

/-- Lookup (`Dict::get`). -/
def dictGet (m : PosMap) (k : String) : Option Nat :=
  (m.find? (fun kv => kv.1 == k)).map (·.2)

/-- Insert-or-overwrite (`Dict::insert`). -/
def dictInsert (m : PosMap) (k : String) (v : Nat) : PosMap :=
  if (m.find? (fun kv => kv.1 == k)).isSome then
    m.map (fun kv => if kv.1 == k then (k, v) else kv)
  else m ++ [(k, v)]

/-- Registered class names (`Dict::keys`), in insertion order. -/
def dictKeys (m : PosMap) : List String := m.map (·.1)

/-- The similar-name hint text the unknown-class branch builds:
`keys().fold("", |acc, key| acc + key + ",")`. -/
def similarStr (m : PosMap) : String :=
  (dictKeys m).foldl (fun acc key => acc ++ key ++ ",") ""

/-- Element insertion at an index (`Vec::insert`); the pass only calls it at
an index bounded by the list length. -/
def insertAt : List α → Nat → α → List α
  | l, 0, a => a :: l
  | [], _ + 1, a => [a]
  | x :: l, n + 1, a => x :: insertAt l n a

/-- Mutable state of `Linker::link`'s loop: the position map, the accumulated
diagnostics (`self.errs`), and the output buffer `new`. -/
structure LinkSt where
  map : PosMap
  errs : List Diag
  out : List Expr

/-- Recognition of the class-constructor callee names. -/
def isClassName (n : String) : Bool :=
  n == "Class" || n == "Inherit" || n == "Inheritable"

/-- One iteration of `Linker::link`'s `while let` loop on the popped chunk.
`none` models the panics: `first().unwrap()` on an empty body block,
`ident().unwrap()` on a class definition without a simple identifier,
`Vec::remove`/`unreachable!` on a corrupt position map, and the `todo!` on a
non-simple `Methods` target. -/
def linkStep (st : LinkSt) (e : Expr) : Option LinkSt :=
  match e with
  | .def_ sigName body =>
    match body.head? with
    | none => none
    | some (.call (some cn) _) =>
      if isClassName cn then
        match sigName with
        | none => none
        | some n =>
          some { map := dictInsert st.map n st.out.length,
                 errs := st.errs,
                 out := st.out ++ [.classDef sigName body []] }
      else some { st with out := st.out ++ [.def_ sigName body] }
    | some _ => some { st with out := st.out ++ [.def_ sigName body] }
  | .methods tspec attrs =>
    match tspec with
    | .preDeclSimple name loc =>
      match dictGet st.map name with
      | some pos =>
        match st.out[pos]? with
        | some (.classDef cn cb ml) =>
          some { st with
                 out := insertAt (st.out.eraseIdx pos) pos
                   (.classDef cn cb (ml ++ [(.preDeclSimple name loc, attrs)])) }
        | _ => none
      | none =>
        some { st with errs := st.errs ++ [noVarError loc name (some (similarStr st.map))] }
    | .otherSpec _ => none
  | e => some { st with out := st.out ++ [e] }

/-- The loop of `Linker::link`, consuming the module front to back. -/
def linkLoop : List Expr → LinkSt → Option LinkSt
  | [], st => some st
  | e :: rest, st =>
    match linkStep st e with
    | none => none
    | some st' => linkLoop rest st'

/-- Pass `Linker::link` on a fresh linker: `Ok` with the rewritten module when
no diagnostics accumulated, otherwise `Err` with the accumulated errors;
`none` models a panic. -/
def link (m : List Expr) : Option (Except (List Diag) (List Expr)) :=
  match linkLoop m ⟨[], [], []⟩ with
  | none => none
  | some st => some (if st.errs.isEmpty then .ok st.out else .error st.errs)

/-- Discriminator for free-standing `Methods` items. -/
def isMethods : Expr → Bool
  | .methods _ _ => true
  | _ => false

/-- The single output item a non-`Methods` input item contributes: a
definition whose body begins with a class-constructor call becomes a
`ClassDef` wrapping it with an empty methods list; everything else passes
through unchanged. -/
def transform1 : Expr → Expr
  | .def_ sigName body =>
    match body.head? with
    | some (.call (some cn) _) =>
      if isClassName cn then .classDef sigName body [] else .def_ sigName body
    | _ => .def_ sigName body
  | e => e

/-- Skeleton of an item: a `ClassDef` with its absorbed methods erased, so
that positions can be compared independently of later absorptions. -/
def skel : Expr → Expr
  | .classDef sn b _ => .classDef sn b []
  | e => e

/-- Invariant of the loop state: every registered position holds a `ClassDef`
in the output buffer. -/
def PosInv (st : LinkSt) : Prop :=
  ∀ kv ∈ st.map, ∃ sn b ml, st.out[kv.2]? = some (Expr.classDef sn b ml)

/-- Helper: removing at a valid index and reinserting at the same index is an
in-place replacement, which is how the absorption branch edits the buffer. -/
theorem insertAt_eraseIdx {α : Type} : ∀ (l : List α) (pos : Nat) (b : α),
    pos < l.length → insertAt (l.eraseIdx pos) pos b = l.set pos b := by
  intro l
  induction l with
  | nil => intro pos b h; simp at h
  | cons x xs ih =>
      intro pos b h
      cases pos with
      | zero => simp [insertAt, List.eraseIdx]
      | succ n =>
          simp only [List.eraseIdx, insertAt, List.set]
          rw [ih n b (by simpa using h)]

/-- Helper: writing back the element already stored at an index is the
identity. -/
theorem set_self_of_getElem? {α : Type} : ∀ (l : List α) (pos : Nat) (a : α),
    l[pos]? = some a → l.set pos a = l := by
  intro l
  induction l with
  | nil => intro pos a h; simp at h
  | cons x xs ih =>
      intro pos a h
      cases pos with
      | zero => simp_all
      | succ n =>
          simp only [List.getElem?_cons_succ] at h
          simp [List.set, ih n a h]

/-- Helper: every binding of `dictInsert m k v` is a binding of `m` or the
inserted pair. -/
theorem mem_dictInsert {m : PosMap} {k : String} {v : Nat} :
    ∀ kv ∈ dictInsert m k v, kv ∈ m ∨ kv = (k, v) := by
  intro kv hkv
  unfold dictInsert at hkv
  by_cases hf : ((m.find? (fun kv => kv.1 == k)).isSome : Prop)
  · rw [if_pos hf] at hkv
    obtain ⟨kv₀, hkv₀, heq⟩ := List.mem_map.mp hkv
    by_cases he : (kv₀.1 == k : Bool) = true
    · right; rw [← heq, if_pos he]
    · left; rw [← heq, if_neg he]; exact hkv₀
  · rw [if_neg hf] at hkv
    rcases List.mem_append.mp hkv with h | h
    · exact Or.inl h
    · exact Or.inr (List.mem_singleton.mp h)

/-- Helper: a successful `linkStep` preserves the position-map invariant. -/
theorem linkStep_posInv {st st' : LinkSt} {e : Expr} (hinv : PosInv st)
    (h : linkStep st e = some st') : PosInv st' := by
  have happend : ∀ (x : Expr) (kv : String × Nat), kv ∈ st.map →
      ∃ sn b ml, (st.out ++ [x])[kv.2]? = some (Expr.classDef sn b ml) := by
    intro x kv hkv
    obtain ⟨sn, b, ml, hg⟩ := hinv kv hkv
    have hlt : kv.2 < st.out.length := (List.getElem?_eq_some.mp hg).1
    exact ⟨sn, b, ml, by rw [List.getElem?_append_left hlt]; exact hg⟩
  cases e with
  | def_ sigName body =>
      cases body with
      | nil => simp [linkStep] at h
      | cons hd tl =>
          cases hd with
          | call objName cargs =>
              cases objName with
              | none =>
                  simp only [linkStep, List.head?_cons] at h
                  rw [← Option.some_inj.mp h]; intro kv hkv; exact happend _ kv hkv
              | some cn =>
                  simp only [linkStep, List.head?_cons] at h
                  by_cases hcls : (isClassName cn : Bool) = true
                  · rw [if_pos hcls] at h
                    cases sigName with
                    | none => simp at h
                    | some n =>
                        simp only [Option.some_inj] at h
                        rw [← h]
                        intro kv hkv
                        rcases mem_dictInsert kv hkv with hold | hnew
                        · exact happend _ kv hold
                        · rw [hnew]
                          exact ⟨some n, Expr.call (some cn) cargs :: tl, [],
                            by simp [List.getElem?_concat_length st.out]⟩
                  · rw [if_neg hcls] at h
                    rw [← Option.some_inj.mp h]; intro kv hkv; exact happend _ kv hkv
          | def_ sn b =>
              simp only [linkStep, List.head?_cons] at h
              rw [← Option.some_inj.mp h]; intro kv hkv; exact happend _ kv hkv
          | methods ts at_ =>
              simp only [linkStep, List.head?_cons] at h
              rw [← Option.some_inj.mp h]; intro kv hkv; exact happend _ kv hkv
          | classDef sn b ml =>
              simp only [linkStep, List.head?_cons] at h
              rw [← Option.some_inj.mp h]; intro kv hkv; exact happend _ kv hkv
          | other tag =>
              simp only [linkStep, List.head?_cons] at h
              rw [← Option.some_inj.mp h]; intro kv hkv; exact happend _ kv hkv
  | methods tspec attrs =>
      cases tspec with
      | otherSpec l => simp [linkStep] at h
      | preDeclSimple name loc =>
          simp only [linkStep] at h
          cases hget : dictGet st.map name with
          | none =>
              simp only [hget] at h
              rw [← Option.some_inj.mp h]; intro kv hkv; exact hinv kv hkv
          | some pos =>
              simp only [hget] at h
              cases hout : st.out[pos]? with
              | none => simp only [hout] at h; simp at h
              | some cd =>
                  simp only [hout] at h
                  cases cd with
                  | classDef cn cb ml =>
                      simp only [Option.some_inj] at h
                      have hlt : pos < st.out.length := (List.getElem?_eq_some.mp hout).1
                      rw [← h]
                      intro kv hkv
                      simp only [insertAt_eraseIdx st.out pos _ hlt]
                      by_cases hp : kv.2 = pos
                      · refine ⟨cn, cb, ml ++ [(.preDeclSimple name loc, attrs)], ?_⟩
                        rw [hp]
                        simp [List.getElem?_set_self', hlt]
                      · obtain ⟨sn, b, ml', hg⟩ := hinv kv hkv
                        exact ⟨sn, b, ml', by
                          rw [List.getElem?_set_ne (fun hc => hp hc.symm)]; exact hg⟩
                  | def_ _ _ => simp at h
                  | call _ _ => simp at h
                  | methods _ _ => simp at h
                  | other _ => simp at h
  | call objName cargs =>
      simp only [linkStep, Option.some_inj] at h
      rw [← h]; intro kv hkv; exact happend _ kv hkv
  | classDef sn b ml =>
      simp only [linkStep, Option.some_inj] at h
      rw [← h]; intro kv hkv; exact happend _ kv hkv
  | other tag =>
      simp only [linkStep, Option.some_inj] at h
      rw [← h]; intro kv hkv; exact happend _ kv hkv

/-- Helper: a successful `linkStep` appends exactly the transformed item to
the output (up to methods-erasure) for non-`Methods` items, and leaves the
skeleton of the output untouched for `Methods` items. -/
theorem linkStep_skel {st st' : LinkSt} {e : Expr}
    (h : linkStep st e = some st') :
    st'.out.map skel =
      st.out.map skel ++ (if isMethods e then [] else [skel (transform1 e)]) := by
  cases e with
  | def_ sigName body =>
      cases body with
      | nil => simp [linkStep] at h
      | cons hd tl =>
          cases hd with
          | call objName cargs =>
              cases objName with
              | none =>
                  simp only [linkStep, List.head?_cons] at h
                  rw [← Option.some_inj.mp h]
                  simp [isMethods, transform1, skel]
              | some cn =>
                  simp only [linkStep, List.head?_cons] at h
                  by_cases hcls : (isClassName cn : Bool) = true
                  · rw [if_pos hcls] at h
                    cases sigName with
                    | none => simp at h
                    | some n =>
                        simp only [Option.some_inj] at h
                        rw [← h]
                        simp [isMethods, transform1, skel, hcls]
                  · rw [if_neg hcls] at h
                    rw [← Option.some_inj.mp h]
                    simp [isMethods, transform1, skel, hcls]
          | def_ sn b =>
              simp only [linkStep, List.head?_cons] at h
              rw [← Option.some_inj.mp h]
              simp [isMethods, transform1, skel]
          | methods ts at_ =>
              simp only [linkStep, List.head?_cons] at h
              rw [← Option.some_inj.mp h]
              simp [isMethods, transform1, skel]
          | classDef sn b ml =>
              simp only [linkStep, List.head?_cons] at h
              rw [← Option.some_inj.mp h]
              simp [isMethods, transform1, skel]
          | other tag =>
              simp only [linkStep, List.head?_cons] at h
              rw [← Option.some_inj.mp h]
              simp [isMethods, transform1, skel]
  | methods tspec attrs =>
      cases tspec with
      | otherSpec l => simp [linkStep] at h
      | preDeclSimple name loc =>
          simp only [linkStep] at h
          cases hget : dictGet st.map name with
          | none =>
              simp only [hget] at h
              rw [← Option.some_inj.mp h]
              simp [isMethods]
          | some pos =>
              simp only [hget] at h
              cases hout : st.out[pos]? with
              | none => simp only [hout] at h; simp at h
              | some cd =>
                  simp only [hout] at h
                  cases cd with
                  | classDef cn cb ml =>
                      simp only [Option.some_inj] at h
                      have hlt : pos < st.out.length := (List.getElem?_eq_some.mp hout).1
                      rw [← h]
                      simp only [isMethods, if_pos, List.append_nil]
                      rw [insertAt_eraseIdx st.out pos _ hlt, List.map_set]
                      have : (st.out.map skel)[pos]? = some (skel (Expr.classDef cn cb ml)) := by
                        rw [List.getElem?_map, hout]; rfl
                      calc (st.out.map skel).set pos
                            (skel (Expr.classDef cn cb (ml ++ [(.preDeclSimple name loc, attrs)])))
                          = (st.out.map skel).set pos (skel (Expr.classDef cn cb ml)) := by
                            simp [skel]
                        _ = st.out.map skel := set_self_of_getElem? _ pos _ this
                  | def_ _ _ => simp at h
                  | call _ _ => simp at h
                  | methods _ _ => simp at h
                  | other _ => simp at h
  | call objName cargs =>
      simp only [linkStep, Option.some_inj] at h
      rw [← h]; simp [isMethods, transform1, skel]
  | classDef sn b ml =>
      simp only [linkStep, Option.some_inj] at h
      rw [← h]; simp [isMethods, transform1, skel]
  | other tag =>
      simp only [linkStep, Option.some_inj] at h
      rw [← h]; simp [isMethods, transform1, skel]

/-- Helper: a successful `linkStep` never places a free-standing `Methods`
item in the output buffer. -/
theorem linkStep_noMethods {st st' : LinkSt} {e : Expr}
    (hm : ∀ x ∈ st.out, isMethods x = false)
    (h : linkStep st e = some st') : ∀ x ∈ st'.out, isMethods x = false := by
  intro x hx
  -- Re-examine the step case by case; every branch appends a non-Methods item
  -- or rewrites a position in place with a ClassDef.
  cases e with
  | def_ sigName body =>
      cases body with
      | nil => simp [linkStep] at h
      | cons hd tl =>
          cases hd with
          | call objName cargs =>
              cases objName with
              | none =>
                  simp only [linkStep, List.head?_cons] at h
                  rw [← Option.some_inj.mp h] at hx
                  rcases List.mem_append.mp hx with h1 | h1
                  · exact hm x h1
                  · rw [List.mem_singleton.mp h1]; rfl
              | some cn =>
                  simp only [linkStep, List.head?_cons] at h
                  by_cases hcls : (isClassName cn : Bool) = true
                  · rw [if_pos hcls] at h
                    cases sigName with
                    | none => simp at h
                    | some n =>
                        simp only [Option.some_inj] at h
                        rw [← h] at hx
                        rcases List.mem_append.mp hx with h1 | h1
                        · exact hm x h1
                        · rw [List.mem_singleton.mp h1]; rfl
                  · rw [if_neg hcls] at h
                    rw [← Option.some_inj.mp h] at hx
                    rcases List.mem_append.mp hx with h1 | h1
                    · exact hm x h1
                    · rw [List.mem_singleton.mp h1]; rfl
          | def_ sn b =>
              simp only [linkStep, List.head?_cons] at h
              rw [← Option.some_inj.mp h] at hx
              rcases List.mem_append.mp hx with h1 | h1
              · exact hm x h1
              · rw [List.mem_singleton.mp h1]; rfl
          | methods ts at_ =>
              simp only [linkStep, List.head?_cons] at h
              rw [← Option.some_inj.mp h] at hx
              rcases List.mem_append.mp hx with h1 | h1
              · exact hm x h1
              · rw [List.mem_singleton.mp h1]; rfl
          | classDef sn b ml =>
              simp only [linkStep, List.head?_cons] at h
              rw [← Option.some_inj.mp h] at hx
              rcases List.mem_append.mp hx with h1 | h1
              · exact hm x h1
              · rw [List.mem_singleton.mp h1]; rfl
          | other tag =>
              simp only [linkStep, List.head?_cons] at h
              rw [← Option.some_inj.mp h] at hx
              rcases List.mem_append.mp hx with h1 | h1
              · exact hm x h1
              · rw [List.mem_singleton.mp h1]; rfl
  | methods tspec attrs =>
      cases tspec with
      | otherSpec l => simp [linkStep] at h
      | preDeclSimple name loc =>
          simp only [linkStep] at h
          cases hget : dictGet st.map name with
          | none =>
              simp only [hget] at h
              rw [← Option.some_inj.mp h] at hx
              exact hm x hx
          | some pos =>
              simp only [hget] at h
              cases hout : st.out[pos]? with
              | none => simp only [hout] at h; simp at h
              | some cd =>
                  simp only [hout] at h
                  cases cd with
                  | classDef cn cb ml =>
                      simp only [Option.some_inj] at h
                      have hlt : pos < st.out.length := (List.getElem?_eq_some.mp hout).1
                      rw [← h] at hx
                      simp only [insertAt_eraseIdx st.out pos _ hlt] at hx
                      rcases List.mem_or_eq_of_mem_set hx with h1 | h1
                      · exact hm x h1
                      · rw [h1]; rfl
                  | def_ _ _ => simp at h
                  | call _ _ => simp at h
                  | methods _ _ => simp at h
                  | other _ => simp at h
  | call objName cargs =>
      simp only [linkStep, Option.some_inj] at h
      rw [← h] at hx
      rcases List.mem_append.mp hx with h1 | h1
      · exact hm x h1
      · rw [List.mem_singleton.mp h1]; rfl
  | classDef sn b ml =>
      simp only [linkStep, Option.some_inj] at h
      rw [← h] at hx
      rcases List.mem_append.mp hx with h1 | h1
      · exact hm x h1
      · rw [List.mem_singleton.mp h1]; rfl
  | other tag =>
      simp only [linkStep, Option.some_inj] at h
      rw [← h] at hx
      rcases List.mem_append.mp hx with h1 | h1
      · exact hm x h1
      · rw [List.mem_singleton.mp h1]; rfl

/-- Helper: the loop preserves the skeletons of the already-produced output
and appends the transforms of exactly the non-`Methods` items, in order. -/
theorem linkLoop_skel : ∀ (m : List Expr) (st st' : LinkSt), PosInv st →
    linkLoop m st = some st' →
    st'.out.map skel = st.out.map skel ++
      (m.filter (fun e => !isMethods e)).map (fun e => skel (transform1 e)) := by
  intro m
  induction m with
  | nil =>
      intro st st' _ h
      simp only [linkLoop, Option.some_inj] at h
      rw [← h]; simp
  | cons e rest ih =>
      intro st st' hinv h
      simp only [linkLoop] at h
      cases hstep : linkStep st e with
      | none => rw [hstep] at h; simp at h
      | some st₁ =>
          rw [hstep] at h
          have h₁ := linkStep_skel hstep
          have h₂ := ih st₁ st' (linkStep_posInv hinv hstep) h
          rw [h₂, h₁, List.filter_cons]
          by_cases hm : (isMethods e : Bool) = true
          · simp [hm]
          · simp only [hm, Bool.not_false, if_pos]
            simp [List.append_assoc]

/-- Helper: the loop never leaves a free-standing `Methods` item in the
output buffer. -/
theorem linkLoop_noMethods : ∀ (m : List Expr) (st st' : LinkSt),
    (∀ x ∈ st.out, isMethods x = false) →
    linkLoop m st = some st' → ∀ x ∈ st'.out, isMethods x = false := by
  intro m
  induction m with
  | nil =>
      intro st st' hm h
      simp only [linkLoop, Option.some_inj] at h
      rw [← h]; exact hm
  | cons e rest ih =>
      intro st st' hm h
      simp only [linkLoop] at h
      cases hstep : linkStep st e with
      | none => rw [hstep] at h; simp at h
      | some st₁ =>
          rw [hstep] at h
          exact ih st₁ st' (linkStep_noMethods hm hstep) h

/-- Helper: the loop dies with the `first().unwrap()` panic whenever the
remaining items contain a definition with an empty body block. -/
theorem linkLoop_empty_def : ∀ (m : List Expr) (st : LinkSt) (sigName : Option String),
    Expr.def_ sigName [] ∈ m → linkLoop m st = none := by
  intro m
  induction m with
  | nil => intro st sigName h; simp at h
  | cons e rest ih =>
      intro st sigName h
      rcases List.mem_cons.mp h with he | he
      · rw [← he]
        simp [linkLoop, linkStep]
      · simp only [linkLoop]
        cases hstep : linkStep st e with
        | none => rfl
        | some st₁ => exact ih st₁ sigName he

/-- Character-level rendering of the comma-separated key list built by the
unknown-class hint. -/
def commaJoin : List String → List Char
  | [] => []
  | k :: rest => k.data ++ ',' :: commaJoin rest

/-- Helper: the hint fold renders its accumulator followed by the
comma-separated keys. -/
theorem foldl_comma_data : ∀ (keys : List String) (acc : String),
    (keys.foldl (fun a key => a ++ key ++ ",") acc).data = acc.data ++ commaJoin keys := by
  intro keys
  induction keys with
  | nil => intro acc; simp [commaJoin]
  | cons k rest ih =>
      intro acc
      simp only [List.foldl_cons, commaJoin, ih, String.data_append]
      simp [String.data_append]

/-- Helper: every key of the map appears, followed by a comma, inside the
rendered hint text. -/
theorem similarStr_contains (m : PosMap) (k : String) (hk : k ∈ dictKeys m) :
    ∃ pre post, (similarStr m).data = pre ++ (k.data ++ [',']) ++ post := by
  unfold similarStr
  rw [foldl_comma_data]
  suffices h : ∀ (keys : List String), k ∈ keys →
      ∃ pre post, commaJoin keys = pre ++ (k.data ++ [',']) ++ post by
    obtain ⟨pre, post, hpp⟩ := h (dictKeys m) hk
    exact ⟨pre, post, by simp [hpp]⟩
  intro keys
  induction keys with
  | nil => intro h; simp at h
  | cons k₀ rest ih =>
      intro h
      rcases List.mem_cons.mp h with he | he
      · exact ⟨[], commaJoin rest, by simp [commaJoin, ← he]⟩
      · obtain ⟨pre, post, hpp⟩ := ih he
        exact ⟨k₀.data ++ [','] ++ pre, post, by simp [commaJoin, hpp]⟩

/-- Claim C2.  `Linker::link` preserves the relative order of all
non-`Methods` items: the output skeleton is exactly the in-order transform of
the non-`Methods` inputs (class-constructor definitions become `ClassDef`s in
place, everything else passes through; `Methods` blocks only extend the
methods list of an already-placed `ClassDef`).  Concretely, the module
`[def Foo = Class(); Methods(Foo) { bar := 1 }]` links to
`[ClassDef(Foo, methods = [bar := 1])]` with no errors. -/
theorem link_source_order_stable :
    (∀ (m : List Expr) (st' : LinkSt), linkLoop m ⟨[], [], []⟩ = some st' →
      st'.out.map skel =
        (m.filter (fun e => !isMethods e)).map (fun e => skel (transform1 e))) ∧
    link [Expr.def_ (some "Foo") [Expr.call (some "Class") []],
          Expr.methods (TypeSpec.preDeclSimple "Foo" 7)
            [Expr.def_ (some "bar") [Expr.other 1]]] =
      some (.ok [Expr.classDef (some "Foo") [Expr.call (some "Class") []]
        [(TypeSpec.preDeclSimple "Foo" 7, [Expr.def_ (some "bar") [Expr.other 1]])]]) := by
  constructor
  · intro m st' h
    have hbase := linkLoop_skel m ⟨[], [], []⟩ st' (by intro kv hkv; simp at hkv) h
    simpa using hbase
  · rfl

/-- Witness for C2 on the scenario module `[def Foo = Class(); Methods(Foo)]`. -/
theorem link_source_order_stable_witness :
    ([Expr.classDef (some "Foo") [Expr.call (some "Class") []]
        [(TypeSpec.preDeclSimple "Foo" 7, [Expr.def_ (some "bar") [Expr.other 1]])]].map skel) =
      (([Expr.def_ (some "Foo") [Expr.call (some "Class") []],
         Expr.methods (TypeSpec.preDeclSimple "Foo" 7)
           [Expr.def_ (some "bar") [Expr.other 1]]].filter
             (fun e => !isMethods e)).map (fun e => skel (transform1 e))) :=
  link_source_order_stable.1 _
    ⟨[("Foo", 0)], [],
     [Expr.classDef (some "Foo") [Expr.call (some "Class") []]
       [(TypeSpec.preDeclSimple "Foo" 7, [Expr.def_ (some "bar") [Expr.other 1]])]]⟩ rfl

/-- Claim C3.  When a `Methods` block's simple target name is not registered,
`Linker::link` appends exactly one `NameError` diagnostic for that block,
located at the `Methods` target, whose hint is the comma-separated fold of
every class name registered so far (every registered key occurs in it,
followed by a comma), and the loop state is otherwise unchanged, so
processing continues.  Concretely, `[def Foo = Class(); Methods(Bar) {}]`
yields one `NameError` at the `Methods` location with hint text containing
`"Foo,"`. -/
theorem methods_unknown_class_error :
    (∀ (st : LinkSt) (name : String) (loc : Nat) (attrs : List Expr),
      dictGet st.map name = none →
      linkStep st (.methods (.preDeclSimple name loc) attrs) =
        some ⟨st.map,
          st.errs ++ [{ kind := .nameError, loc := loc,
                        desc := name ++ " is not defined",
                        hint := some ("exists a similar name variable: " ++
                          similarStr st.map) }],
          st.out⟩) ∧
    (∀ (st : LinkSt) (k : String), k ∈ dictKeys st.map →
      ∃ pre post, (similarStr st.map).data = pre ++ (k.data ++ [',']) ++ post) ∧
    link [Expr.def_ (some "Foo") [Expr.call (some "Class") []],
          Expr.methods (TypeSpec.preDeclSimple "Bar" 9) []] =
      some (.error [{ kind := .nameError, loc := 9, desc := "Bar is not defined",
                      hint := some "exists a similar name variable: Foo," }]) := by
  refine ⟨?_, ?_, rfl⟩
  · intro st name loc attrs h
    simp only [linkStep, h]
    rfl
  · intro st k hk
    exact similarStr_contains st.map k hk

/-- Witness for C3 at a concrete registered map and unknown target. -/
theorem methods_unknown_class_error_witness :
    linkStep ⟨[("Foo", 0)], [], []⟩ (.methods (.preDeclSimple "Bar" 9) []) =
      some ⟨[("Foo", 0)],
        [] ++ [{ kind := .nameError, loc := 9,
                 desc := "Bar" ++ " is not defined",
                 hint := some ("exists a similar name variable: " ++
                   similarStr [("Foo", 0)]) }],
        []⟩ :=
  methods_unknown_class_error.1 ⟨[("Foo", 0)], [], []⟩ "Bar" 9 [] rfl

/-- Claim C4.  After the linking pass completes without a panic, the built
module contains no free-standing `Methods` item, and `link` returns `Ok` with
the rewritten module exactly when the accumulated diagnostics are empty,
otherwise `Err` with the accumulated errors. -/
theorem link_no_orphan_methods :
    ∀ (m : List Expr) (r : Except (List Diag) (List Expr)), link m = some r →
      ∃ st', linkLoop m ⟨[], [], []⟩ = some st' ∧
        (st'.errs = [] → r = .ok st'.out) ∧
        (st'.errs ≠ [] → r = .error st'.errs) ∧
        ∀ x ∈ st'.out, isMethods x = false := by
  intro m r h
  unfold link at h
  cases hloop : linkLoop m ⟨[], [], []⟩ with
  | none => rw [hloop] at h; simp at h
  | some st' =>
      rw [hloop] at h
      simp only [Option.some_inj] at h
      refine ⟨st', rfl, ?_, ?_, ?_⟩
      · intro he; rw [← h]; simp [he]
      · intro he; rw [← h]
        have : st'.errs.isEmpty = false := by
          cases herrs : st'.errs with
          | nil => exact absurd herrs he
          | cons a l => rfl
        simp [this]
      · exact linkLoop_noMethods m ⟨[], [], []⟩ st' (by intro x hx; simp at hx) hloop

/-- Witness for C4 on the scenario module `[def Foo = Class(); Methods(Foo)]`. -/
theorem link_no_orphan_methods_witness :
    ∃ st', linkLoop [Expr.def_ (some "Foo") [Expr.call (some "Class") []],
        Expr.methods (TypeSpec.preDeclSimple "Foo" 7) [Expr.def_ (some "bar") [Expr.other 1]]]
        ⟨[], [], []⟩ = some st' ∧
      (st'.errs = [] →
        (Except.ok [Expr.classDef (some "Foo") [Expr.call (some "Class") []]
          [(TypeSpec.preDeclSimple "Foo" 7, [Expr.def_ (some "bar") [Expr.other 1]])]] :
            Except (List Diag) (List Expr)) = .ok st'.out) ∧
      (st'.errs ≠ [] →
        (Except.ok [Expr.classDef (some "Foo") [Expr.call (some "Class") []]
          [(TypeSpec.preDeclSimple "Foo" 7, [Expr.def_ (some "bar") [Expr.other 1]])]] :
            Except (List Diag) (List Expr)) = .error st'.errs) ∧
      ∀ x ∈ st'.out, isMethods x = false :=
  link_no_orphan_methods _ _ rfl

/-- Claim C10.  `Linker::link` is not total over its AST input: whenever the
module contains a top-level definition whose body block is empty, the pass
panics (the body's first expression is extracted with `unwrap`), modelled as
`none`; a non-empty body block on every definition is an unstated
precondition of the pass. -/
theorem link_panics_on_empty_def_body :
    ∀ (m : List Expr) (sigName : Option String),
      Expr.def_ sigName [] ∈ m → link m = none := by
  intro m sigName h
  unfold link
  rw [linkLoop_empty_def m ⟨[], [], []⟩ sigName h]

/-- Witness for C10 on a concrete module with an empty-bodied definition. -/
theorem link_panics_on_empty_def_body_witness :
    link [Expr.other 0, Expr.def_ (some "x") []] = none :=
  link_panics_on_empty_def_body _ (some "x") (by simp)

/-!
Store-based model of `Free<Type>` cells.  A `Free<T>` is a shared handle to
interior-mutable state; the graph of cells is modelled as an association list
from addresses to `FreeKind Ty` values, and every operation that the source
performs through `borrow`/`as_ptr` threads this store.  Traversals that the
source keeps finite through the forced-undoable-link protocol take an explicit
fuel argument and return `none` when it runs out.
-/

/-- Cell stores: addresses to cell states. -/
abbrev Store := List (Addr × FreeKind Ty)

/-- Read a cell. -/
def getA : Store → Addr → Option (FreeKind Ty)
  | [], _ => none
  | kv :: rest, a => if kv.1 = a then some kv.2 else getA rest a

/-- Overwrite a cell in place. -/
def setA : Store → Addr → FreeKind Ty → Store
  | [], _, _ => []
  | kv :: rest, a, k => if kv.1 = a then (a, k) :: setA rest a k else kv :: setA rest a k

/-- Helper: writing an allocated cell makes the new state readable. -/
theorem getA_setA_eq : ∀ (σ : Store) (a : Addr) (k₀ k : FreeKind Ty),
    getA σ a = some k₀ → getA (setA σ a k) a = some k := by
  intro σ
  induction σ with
  | nil => intro a k₀ k h; simp [getA] at h
  | cons kv rest ih =>
      intro a k₀ k h
      by_cases he : kv.1 = a
      · simp [getA, setA, he]
      · simp only [getA, setA, if_neg he] at h ⊢
        exact ih a k₀ k h

/-- Helper: writing one cell leaves every other cell unchanged. -/
theorem getA_setA_ne : ∀ (σ : Store) (a b : Addr) (k : FreeKind Ty),
    b ≠ a → getA (setA σ a k) b = getA σ b := by
  intro σ
  induction σ with
  | nil => intro a b k _; simp [getA, setA]
  | cons kv rest ih =>
      intro a b k hne
      by_cases he : kv.1 = a
      · simp [getA, setA, he, if_neg (Ne.symm hne), ih a b k hne]
      · simp only [setA, if_neg he, getA]
        by_cases hb : kv.1 = b
        · simp [hb]
        · simp [hb, ih a b k hne]

mutual
/-- Accessor `Free::unbound_name`: the name of a `NamedUnbound` cell, the
formatted `%id` of an `Unbound` cell, and for linked cells the unbound name of
the pointed term. -/
def freeUnboundName : Nat → Store → Addr → Option (Option String)
  | 0, _, _ => none
  | fuel + 1, σ, a =>
    match getA σ a with
    | none => none
    | some (.namedUnbound n _ _) => some (some n)
    | some (.unbound id _ _) => some (some ("%" ++ toString id))
    | some (.linked t) => tyUnboundName fuel σ t
    | some (.undoableLinked t _) => tyUnboundName fuel σ t

/-- Modelled from the spec: `CanbeFree::unbound_name` for `Type` (its impl is
outside the sources in scope) — a `FreeVar` delegates to its cell, every other
type term has no unbound name. -/
def tyUnboundName : Nat → Store → Ty → Option (Option String)
  | 0, _, _ => none
  | fuel + 1, σ, t =>
    match t with
    | .freeVar a => freeUnboundName fuel σ a
    | _ => some none
end

mutual
/-- Accessor `HasLevel::level` for `Free<Type>`: the stored level of an
unbound cell; linked cells delegate to the pointed term. -/
def freeLevel : Nat → Store → Addr → Option (Option Level)
  | 0, _, _ => none
  | fuel + 1, σ, a =>
    match getA σ a with
    | none => none
    | some (.unbound _ lev _) => some (some lev)
    | some (.namedUnbound _ lev _) => some (some lev)
    | some (.linked t) => tyLevel fuel σ t
    | some (.undoableLinked t _) => tyLevel fuel σ t

/-- Modelled from the spec: `HasLevel::level` for `Type` (outside the sources
in scope) — the minimum level among embedded free variables, `None` when the
term is fully ground. -/
def tyLevel : Nat → Store → Ty → Option (Option Level)
  | 0, _, _ => none
  | fuel + 1, σ, t =>
    match t with
    | .freeVar a => freeLevel fuel σ a
    | .poly _ params => typListLevel fuel σ params
    | _ => some none

/-- Modelled from the spec: level of a type parameter — the level of the
carried type, `None` for ground literals. -/
def typLevel : Nat → Store → TyP → Option (Option Level)
  | 0, _, _ => none
  | fuel + 1, σ, tp =>
    match tp with
    | .typ t => tyLevel fuel σ t
    | .value _ => some none

/-- Modelled from the spec: minimum level across a parameter list. -/
def typListLevel : Nat → Store → List TyP → Option (Option Level)
  | 0, _, _ => none
  | _ + 1, _, [] => some none
  | fuel + 1, σ, tp :: rest =>
    match typLevel fuel σ tp with
    | none => none
    | some l₁ =>
      match typListLevel fuel σ rest with
      | none => none
      | some l₂ =>
        some (match l₁, l₂ with
              | some x, some y => some (min x y)
              | some x, none => some x
              | none, y => y)
end

mutual
/-- Accessor `Free::constraint`: the constraint of an unbound cell; linked
cells delegate to the pointed term. -/
def freeConstraint : Nat → Store → Addr → Option (Option Constraint)
  | 0, _, _ => none
  | fuel + 1, σ, a =>
    match getA σ a with
    | none => none
    | some (.unbound _ _ c) => some (some c)
    | some (.namedUnbound _ _ c) => some (some c)
    | some (.linked t) => tyConstraint fuel σ t
    | some (.undoableLinked t _) => tyConstraint fuel σ t

/-- Modelled from the spec: `CanbeFree::constraint` for `Type` (outside the
sources in scope) — a `FreeVar` delegates to its cell, other type terms carry
no constraint. -/
def tyConstraint : Nat → Store → Ty → Option (Option Constraint)
  | 0, _, _ => none
  | fuel + 1, σ, t =>
    match t with
    | .freeVar a => freeConstraint fuel σ a
    | _ => some none
end

/-- Trait default `HasLevel::is_generalized`: `level() == Some(GENERIC_LEVEL)`. -/
def freeIsGeneralized (fuel : Nat) (σ : Store) (a : Addr) : Option Bool :=
  (freeLevel fuel σ a).map (fun l => l == some GENERIC_LEVEL)

mutual
/-- Operation `HasLevel::set_level` for `Free<Type>`: on an unbound cell
(named or not) the guard returns when the stored level already equals the
argument (modelled from the spec, see the `addr_eq!` note in the header);
otherwise the level is written and the constraint traversed by
`freeSetLevelBody`.  `Linked` cells delegate to the pointed term and
`UndoableLinked` cells fall into the catch-all arm and do nothing, which is
what makes the traversal of cyclic bounds finite. -/
def freeSetLevel : Nat → Store → Addr → Level → Option Store
  | 0, _, _, _ => none
  | fuel + 1, σ, a, level =>
    match getA σ a with
    | none => none
    | some (.unbound id lev c) =>
      if lev = level then some σ
      else freeSetLevelBody fuel σ a (.unbound id level c) c level
    | some (.namedUnbound n lev c) =>
      if lev = level then some σ
      else freeSetLevelBody fuel σ a (.namedUnbound n level c) c level
    | some (.linked t) => tySetLevel fuel σ t level
    | some (.undoableLinked _ _) => some σ

/-- Body of the source's single unbound arm of `set_level`, after the guard:
write the updated cell state `k₁`, then traverse a sandwich constraint under a
temporary forced undoable link to the sub bound (the cell is unbound at that
point, so the "link to self" guard cannot fire) followed by `undo`, or
traverse a `TypeOf` constraint directly. -/
def freeSetLevelBody : Nat → Store → Addr → FreeKind Ty → Constraint → Level → Option Store
  | 0, _, _, _, _, _ => none
  | fuel + 1, σ, a, k₁, c, level =>
    let σ₁ := setA σ a k₁
    match c.getSubSup with
    | some (sub, sup) =>
      let σ₂ := setA σ₁ a (.undoableLinked sub k₁)
      match tySetLevel fuel σ₂ sub level with
      | none => none
      | some σ₃ =>
        match tySetLevel fuel σ₃ sup level with
        | none => none
        | some σ₄ =>
          match getA σ₄ a with
          | some (.undoableLinked _ prev) => some (setA σ₄ a prev)
          | _ => none
    | none =>
      match c.getType with
      | some t => tySetLevel fuel σ₁ t level
      | none => some σ₁

/-- Modelled from the spec: `HasLevel::set_level` for `Type` (outside the
sources in scope) — set the level of every embedded free variable, walking the
term structure into nominal type parameters and delegating to the cell at a
`FreeVar`. -/
def tySetLevel : Nat → Store → Ty → Level → Option Store
  | 0, _, _, _ => none
  | fuel + 1, σ, t, level =>
    match t with
    | .freeVar a => freeSetLevel fuel σ a level
    | .poly _ params => typListSetLevel fuel σ params level
    | _ => some σ

/-- Modelled from the spec: `set_level` on a type parameter — recurse into the
carried type, nothing to do on ground literals. -/
def typSetLevel : Nat → Store → TyP → Level → Option Store
  | 0, _, _, _ => none
  | fuel + 1, σ, tp, level =>
    match tp with
    | .typ t => tySetLevel fuel σ t level
    | .value _ => some σ

/-- Modelled from the spec: `set_level` across a parameter list, left to
right. -/
def typListSetLevel : Nat → Store → List TyP → Level → Option Store
  | 0, _, _, _ => none
  | _ + 1, σ, [], _ => some σ
  | fuel + 1, σ, tp :: rest, level =>
    match typSetLevel fuel σ tp level with
    | none => none
    | some σ' => typListSetLevel fuel σ' rest level
end

mutual
/-- Operation `Free::update_constraint(new_constraint, in_inst_or_gen)` at the
store level: rejected (log and return) on an unbound cell at `GENERIC_LEVEL`
unless the flag is set, otherwise overwritten in place (the address-identity
guard is modelled as the unconditional write, see the header note); linked
cells forward to the pointed term. -/
def freeUpdateConstraint : Nat → Store → Addr → Constraint → Bool → Option Store
  | 0, _, _, _, _ => none
  | fuel + 1, σ, a, newc, inInstOrGen =>
    match getA σ a with
    | none => none
    | some (.unbound id lev _) =>
      if !inInstOrGen && lev = GENERIC_LEVEL then some σ
      else some (setA σ a (.unbound id lev newc))
    | some (.namedUnbound n lev _) =>
      if !inInstOrGen && lev = GENERIC_LEVEL then some σ
      else some (setA σ a (.namedUnbound n lev newc))
    | some (.linked t) => tyUpdateConstraint fuel σ t newc inInstOrGen
    | some (.undoableLinked t _) => tyUpdateConstraint fuel σ t newc inInstOrGen

/-- Modelled from the spec: `CanbeFree::update_constraint` for `Type` (outside
the sources in scope) — forward to the embedded free variable; ground terms
have no constraint to update. -/
def tyUpdateConstraint : Nat → Store → Ty → Constraint → Bool → Option Store
  | 0, _, _, _, _ => none
  | fuel + 1, σ, t, newc, inInstOrGen =>
    match t with
    | .freeVar a => freeUpdateConstraint fuel σ a newc inInstOrGen
    | _ => some σ
end


/-- States of a cell that a level-`level` traversal cannot alter: unbound
(named or not) already at `level` (the guard returns at once), or temporarily
undoable-linked (the catch-all arm does nothing). -/
def SafeAt (σ : Store) (a : Addr) (level : Level) : Prop :=
  (∃ id c, getA σ a = some (.unbound id level c)) ∨
  (∃ n c, getA σ a = some (.namedUnbound n level c)) ∨
  (∃ t k, getA σ a = some (.undoableLinked t k))

/-- Helper: `SafeAt` only depends on the cell read. -/
theorem SafeAt_of_getA_eq {σ σ' : Store} {a : Addr} {level : Level}
    (hg : getA σ' a = getA σ a) (hs : SafeAt σ a level) : SafeAt σ' a level := by
  rcases hs with ⟨i, c, h⟩ | ⟨n, c, h⟩ | ⟨t, k, h⟩
  · exact Or.inl ⟨i, c, by rw [hg, h]⟩
  · exact Or.inr (Or.inl ⟨n, c, by rw [hg, h]⟩)
  · exact Or.inr (Or.inr ⟨t, k, by rw [hg, h]⟩)

/-- Helper: the `set_level` traversal never changes a cell that is `SafeAt`
the target level — in particular the cell it temporarily undoable-links stays
linked until its own `undo`. -/
theorem setLevel_frame : ∀ fuel : Nat,
    (∀ σ b level σ', freeSetLevel fuel σ b level = some σ' →
      ∀ a, SafeAt σ a level → getA σ' a = getA σ a) ∧
    (∀ σ b k₁ c level σ', freeSetLevelBody fuel σ b k₁ c level = some σ' →
      ∀ a, a ≠ b → SafeAt σ a level → getA σ' a = getA σ a) ∧
    (∀ σ t level σ', tySetLevel fuel σ t level = some σ' →
      ∀ a, SafeAt σ a level → getA σ' a = getA σ a) ∧
    (∀ σ tp level σ', typSetLevel fuel σ tp level = some σ' →
      ∀ a, SafeAt σ a level → getA σ' a = getA σ a) ∧
    (∀ σ tps level σ', typListSetLevel fuel σ tps level = some σ' →
      ∀ a, SafeAt σ a level → getA σ' a = getA σ a) := by
  intro fuel
  induction fuel with
  | zero =>
      refine ⟨?_, ?_, ?_, ?_, ?_⟩
      · intro σ x level σ' h; simp [freeSetLevel] at h
      · intro σ b k₁ c level σ' h; simp [freeSetLevelBody] at h
      · intro σ x level σ' h; simp [tySetLevel] at h
      · intro σ x level σ' h; simp [typSetLevel] at h
      · intro σ x level σ' h; simp [typListSetLevel] at h
  | succ fuel ih =>
      obtain ⟨ihF, ihB, ihT, ihP, ihL⟩ := ih
      refine ⟨?_, ?_, ?_, ?_, ?_⟩
      · -- freeSetLevel
        intro σ b level σ' h a hsafe
        cases hget : getA σ b with
        | none =>
            simp only [freeSetLevel, hget] at h
            exact Option.noConfusion h
        | some k =>
            cases k with
            | linked t =>
                simp only [freeSetLevel, hget] at h
                exact ihT σ t level σ' h a hsafe
            | undoableLinked t prev =>
                simp only [freeSetLevel, hget, Option.some_inj] at h
                rw [← h]
            | unbound id lev c =>
                simp only [freeSetLevel, hget] at h
                by_cases hl : lev = level
                · rw [if_pos hl] at h
                  simp only [Option.some_inj] at h; rw [← h]
                · rw [if_neg hl] at h
                  have hab : a ≠ b := by
                    intro he; subst he
                    rcases hsafe with ⟨id', c', hg⟩ | ⟨n', c', hg⟩ | ⟨t', k', hg⟩ <;>
                      rw [hget] at hg
                    · simp only [Option.some_inj, FreeKind.unbound.injEq] at hg
                      exact hl hg.2.1
                    · simp at hg
                    · simp at hg
                  exact ihB σ b _ c level σ' h a hab hsafe
            | namedUnbound nm lev c =>
                simp only [freeSetLevel, hget] at h
                by_cases hl : lev = level
                · rw [if_pos hl] at h
                  simp only [Option.some_inj] at h; rw [← h]
                · rw [if_neg hl] at h
                  have hab : a ≠ b := by
                    intro he; subst he
                    rcases hsafe with ⟨id', c', hg⟩ | ⟨n', c', hg⟩ | ⟨t', k', hg⟩ <;>
                      rw [hget] at hg
                    · simp at hg
                    · simp only [Option.some_inj, FreeKind.namedUnbound.injEq] at hg
                      exact hl hg.2.1
                    · simp at hg
                  exact ihB σ b _ c level σ' h a hab hsafe
      · -- freeSetLevelBody
        intro σ b k₁ c level σ' h a hab hsafe
        have hσ₁ : getA (setA σ b k₁) a = getA σ a := getA_setA_ne σ b a _ hab
        cases hc : c.getSubSup with
        | some p =>
            obtain ⟨sub, sup⟩ := p
            simp only [freeSetLevelBody, hc] at h
            have hσ₂ : getA (setA (setA σ b k₁) b (.undoableLinked sub k₁)) a = getA σ a := by
              rw [getA_setA_ne _ b a _ hab, hσ₁]
            cases h3 : tySetLevel fuel (setA (setA σ b k₁) b (.undoableLinked sub k₁))
                sub level with
            | none => simp only [h3] at h; exact Option.noConfusion h
            | some σ₃ =>
                simp only [h3] at h
                have hσ₃ : getA σ₃ a = getA σ a := by
                  rw [ihT _ _ _ _ h3 a (SafeAt_of_getA_eq hσ₂ hsafe), hσ₂]
                cases h4 : tySetLevel fuel σ₃ sup level with
                | none => simp only [h4] at h; exact Option.noConfusion h
                | some σ₄ =>
                    simp only [h4] at h
                    have hσ₄ : getA σ₄ a = getA σ a := by
                      rw [ihT _ _ _ _ h4 a (SafeAt_of_getA_eq hσ₃ hsafe), hσ₃]
                    cases h5 : getA σ₄ b with
                    | none => simp only [h5] at h; exact Option.noConfusion h
                    | some k5 =>
                        cases k5 with
                        | undoableLinked t5 prev =>
                            simp only [h5, Option.some_inj] at h
                            rw [← h, getA_setA_ne _ b a _ hab, hσ₄]
                        | linked t5 =>
                            simp only [h5] at h; exact Option.noConfusion h
                        | unbound i5 l5 c5 =>
                            simp only [h5] at h; exact Option.noConfusion h
                        | namedUnbound n5 l5 c5 =>
                            simp only [h5] at h; exact Option.noConfusion h
        | none =>
            simp only [freeSetLevelBody, hc] at h
            cases ht : c.getType with
            | some t =>
                simp only [ht] at h
                rw [ihT _ _ _ _ h a (SafeAt_of_getA_eq hσ₁ hsafe), hσ₁]
            | none =>
                simp only [ht, Option.some_inj] at h
                rw [← h, hσ₁]
      · -- tySetLevel
        intro σ t level σ' h a hsafe
        cases t with
        | never => simp only [tySetLevel, Option.some_inj] at h; rw [← h]
        | obj => simp only [tySetLevel, Option.some_inj] at h; rw [← h]
        | type' => simp only [tySetLevel, Option.some_inj] at h; rw [← h]
        | freeVar b => exact ihF σ b level σ' (by simpa [tySetLevel] using h) a hsafe
        | poly nm params => exact ihL σ params level σ' (by simpa [tySetLevel] using h) a hsafe
      · -- typSetLevel
        intro σ tp level σ' h a hsafe
        cases tp with
        | typ t => exact ihT σ t level σ' (by simpa [typSetLevel] using h) a hsafe
        | value n => simp only [typSetLevel, Option.some_inj] at h; rw [← h]
      · -- typListSetLevel
        intro σ tps level σ' h a hsafe
        cases tps with
        | nil => simp only [typListSetLevel, Option.some_inj] at h; rw [← h]
        | cons tp rest =>
            simp only [typListSetLevel] at h
            cases h1 : typSetLevel fuel σ tp level with
            | none => simp only [h1] at h; exact Option.noConfusion h
            | some σ₁ =>
                simp only [h1] at h
                have hσ₁ : getA σ₁ a = getA σ a := ihP _ _ _ _ h1 a hsafe
                rw [ihL _ _ _ _ h a (SafeAt_of_getA_eq hσ₁ hsafe), hσ₁]

/-- Helper: after the unbound arm's body, the traversed cell holds exactly the
updated state `k₁` that was written before the traversal: the temporary
undoable link is restored to `k₁` by the final `undo`, and a `TypeOf`
traversal cannot touch a cell that is unbound at the target level. -/
theorem freeSetLevelBody_self : ∀ (fuel : Nat) (σ : Store) (a : Addr)
    (k₁ : FreeKind Ty) (c : Constraint) (level : Level) (σ' : Store),
    (∃ k₀, getA σ a = some k₀) →
    SafeAt (setA σ a k₁) a level →
    freeSetLevelBody fuel σ a k₁ c level = some σ' →
    getA σ' a = some k₁ := by
  intro fuel σ a k₁ c level σ' hex hsafe₁ h
  obtain ⟨k₀, hk₀⟩ := hex
  have hσ₁ : getA (setA σ a k₁) a = some k₁ := getA_setA_eq σ a k₀ k₁ hk₀
  cases fuel with
  | zero => simp [freeSetLevelBody] at h
  | succ fuel =>
      cases hc : c.getSubSup with
      | some p =>
          obtain ⟨sub, sup⟩ := p
          simp only [freeSetLevelBody, hc] at h
          have hσ₂ : getA (setA (setA σ a k₁) a (.undoableLinked sub k₁)) a =
              some (.undoableLinked sub k₁) :=
            getA_setA_eq _ a k₁ _ hσ₁
          have hsafe₂ : SafeAt (setA (setA σ a k₁) a (.undoableLinked sub k₁)) a level :=
            Or.inr (Or.inr ⟨sub, k₁, hσ₂⟩)
          cases h3 : tySetLevel fuel (setA (setA σ a k₁) a (.undoableLinked sub k₁))
              sub level with
          | none => simp only [h3] at h; exact Option.noConfusion h
          | some σ₃ =>
              simp only [h3] at h
              have hσ₃ : getA σ₃ a = some (.undoableLinked sub k₁) := by
                rw [(setLevel_frame fuel).2.2.1 _ _ _ _ h3 a hsafe₂, hσ₂]
              have hsafe₃ : SafeAt σ₃ a level := Or.inr (Or.inr ⟨sub, k₁, hσ₃⟩)
              cases h4 : tySetLevel fuel σ₃ sup level with
              | none => simp only [h4] at h; exact Option.noConfusion h
              | some σ₄ =>
                  simp only [h4] at h
                  have hσ₄ : getA σ₄ a = some (.undoableLinked sub k₁) := by
                    rw [(setLevel_frame fuel).2.2.1 _ _ _ _ h4 a hsafe₃, hσ₃]
                  simp only [hσ₄, Option.some_inj] at h
                  rw [← h]
                  exact getA_setA_eq _ a _ k₁ hσ₄
      | none =>
          simp only [freeSetLevelBody, hc] at h
          cases ht : c.getType with
          | some t =>
              simp only [ht] at h
              rw [(setLevel_frame fuel).2.2.1 _ _ _ _ h a hsafe₁, hσ₁]
          | none =>
              simp only [ht, Option.some_inj] at h
              rw [← h, hσ₁]

/-- Claim C7.  `set_level(l)` short-circuits on cells whose level is already
`l`: on an unbound cell already at `l` it returns at once with the store
untouched (no descent into the sandwich bounds).  On cells at another level it
sets the level of every embedded free variable to `l`, shown here on a cell
whose sandwich bound embeds a second free variable: both cells end at the
target level. -/
theorem set_level_short_circuits :
    (∀ (fuel : Nat) (σ : Store) (a : Addr) (id : Nat) (c : Constraint) (level : Level),
      getA σ a = some (.unbound id level c) →
      freeSetLevel (fuel + 1) σ a level = some σ) ∧
    freeSetLevel 12
      [(0, .unbound 10 0 (.sandwiched .never (.freeVar 1))),
       (1, .unbound 11 2 (.sandwiched .never .obj))] 0 5 =
      some [(0, .unbound 10 5 (.sandwiched .never (.freeVar 1))),
            (1, .unbound 11 5 (.sandwiched .never .obj))] := by
  constructor
  · intro fuel σ a id c level h
    simp [freeSetLevel, h]
  · simp [freeSetLevel, freeSetLevelBody, tySetLevel, typSetLevel, typListSetLevel,
      getA, setA, Constraint.getSubSup, Constraint.getType]

/-- Witness for C7's short-circuit at a concrete cell already at the target
level. -/
theorem set_level_short_circuits_witness :
    freeSetLevel 4 [(0, FreeKind.unbound 1 4 Constraint.uninited)] 0 4 =
      some [(0, FreeKind.unbound 1 4 Constraint.uninited)] :=
  set_level_short_circuits.1 3 [(0, .unbound 1 4 Constraint.uninited)] 0 1
    Constraint.uninited 4 rfl

/-- Claim C5.  On an unbound free variable at `GENERIC_LEVEL`,
`update_constraint(c, false)` is rejected (log and return) and the stored
constraint is unchanged, while `update_constraint(c, true)` installs `c`; and
`generalize()` (= `set_level(GENERIC_LEVEL)`) on an unbound variable leaves
the cell unbound at `GENERIC_LEVEL` with its constraint intact, after which
`level()` returns `GENERIC_LEVEL` and `is_generalized()` returns true. -/
theorem generalized_vars_frozen :
    (∀ (fuel : Nat) (σ : Store) (a : Addr) (id : Nat) (c₀ c : Constraint),
      getA σ a = some (.unbound id GENERIC_LEVEL c₀) →
      freeUpdateConstraint (fuel + 1) σ a c false = some σ ∧
      freeUpdateConstraint (fuel + 1) σ a c true =
        some (setA σ a (.unbound id GENERIC_LEVEL c))) ∧
    (∀ (fuel : Nat) (σ : Store) (a : Addr) (id : Nat) (lev : Level)
        (c : Constraint) (σ' : Store),
      getA σ a = some (.unbound id lev c) →
      freeSetLevel fuel σ a GENERIC_LEVEL = some σ' →
      getA σ' a = some (.unbound id GENERIC_LEVEL c) ∧
      ∀ fuel₂ : Nat, freeLevel (fuel₂ + 1) σ' a = some (some GENERIC_LEVEL) ∧
        freeIsGeneralized (fuel₂ + 1) σ' a = some true) := by
  constructor
  · intro fuel σ a id c₀ c h
    constructor
    · simp [freeUpdateConstraint, h]
    · simp [freeUpdateConstraint, h]
  · intro fuel σ a id lev c σ' hget hsl
    have hcell : getA σ' a = some (.unbound id GENERIC_LEVEL c) := by
      cases fuel with
      | zero => simp [freeSetLevel] at hsl
      | succ fuel =>
          by_cases hl : lev = GENERIC_LEVEL
          · subst hl
            simp only [freeSetLevel, hget, eq_self_iff_true, if_true,
              Option.some_inj] at hsl
            rw [← hsl]; exact hget
          · simp only [freeSetLevel, hget, if_neg hl] at hsl
            refine freeSetLevelBody_self fuel σ a _ c GENERIC_LEVEL σ' ⟨_, hget⟩ ?_ hsl
            exact Or.inl ⟨id, c, getA_setA_eq σ a _ _ hget⟩
    refine ⟨hcell, ?_⟩
    intro fuel₂
    constructor
    · simp [freeLevel, hcell]
    · simp [freeIsGeneralized, freeLevel, hcell]

/-- Witness for C5 at concrete generalized and ungeneralized cells. -/
theorem generalized_vars_frozen_witness :
    (freeUpdateConstraint 2 [(0, FreeKind.unbound 1 GENERIC_LEVEL Constraint.uninited)] 0
        (Constraint.typeOf Ty.never) false =
      some [(0, FreeKind.unbound 1 GENERIC_LEVEL Constraint.uninited)] ∧
     freeUpdateConstraint 2 [(0, FreeKind.unbound 1 GENERIC_LEVEL Constraint.uninited)] 0
        (Constraint.typeOf Ty.never) true =
      some (setA [(0, FreeKind.unbound 1 GENERIC_LEVEL Constraint.uninited)] 0
        (.unbound 1 GENERIC_LEVEL (Constraint.typeOf Ty.never)))) ∧
    getA [(0, FreeKind.unbound 2 GENERIC_LEVEL Constraint.uninited)] 0 =
      some (.unbound 2 GENERIC_LEVEL Constraint.uninited) ∧
    freeLevel 1 [(0, FreeKind.unbound 2 GENERIC_LEVEL Constraint.uninited)] 0 =
      some (some GENERIC_LEVEL) ∧
    freeIsGeneralized 1 [(0, FreeKind.unbound 2 GENERIC_LEVEL Constraint.uninited)] 0 =
      some true := by
  have h2 := generalized_vars_frozen.2 5 [(0, .unbound 2 3 Constraint.uninited)] 0 2 3
    Constraint.uninited [(0, .unbound 2 GENERIC_LEVEL Constraint.uninited)] rfl
    (by simp [freeSetLevel, freeSetLevelBody, getA, setA, Constraint.getSubSup,
      Constraint.getType, GENERIC_LEVEL, USIZE_MAX])
  exact ⟨generalized_vars_frozen.1 1 _ 0 1 Constraint.uninited (Constraint.typeOf Ty.never)
    rfl, h2.1, (h2.2 0).1, (h2.2 0).2⟩

/-- Test whether both operands carry a name and the names differ — the only
case in which the name stage of `PartialEq for Free<Type>` rejects. -/
def namesDiffer : Option String → Option String → Bool
  | some x, some y => x != y
  | _, _ => false

/-- Test whether both operands carry a level and the levels differ. -/
def levsDiffer : Option Level → Option Level → Bool
  | some x, some y => x != y
  | _, _ => false

mutual
/-- Equality `PartialEq for Free<Type>` (`free.rs`): reject on differing
names or levels when both sides have them; when both sides have sandwich
bounds, temporarily forced-undoable-link the left cell to its own sub bound
(a clone, so the "link to self" address guard cannot fire), compare the
bounds (the second comparison short-circuits), and `undo`; otherwise compare
carried types when both have one, or the linked terms when both are linked;
in every remaining case the cells are unequal. -/
def freeEq : Nat → Store → Addr → Addr → Option (Bool × Store)
  | 0, _, _, _ => none
  | fuel + 1, σ, a, b =>
    match freeUnboundName fuel σ a, freeUnboundName fuel σ b with
    | some n₁, some n₂ =>
      if namesDiffer n₁ n₂ then some (false, σ)
      else
        match freeLevel fuel σ a, freeLevel fuel σ b with
        | some l₁, some l₂ =>
          if levsDiffer l₁ l₂ then some (false, σ)
          else
            match freeConstraint fuel σ a, freeConstraint fuel σ b with
            | some mc₁, some mc₂ =>
              match mc₁.bind Constraint.getSubSup with
              | some (sub, sup) =>
                match mc₂.bind Constraint.getSubSup with
                | some (osub, osup) =>
                  match getA σ a with
                  | none => none
                  | some cur =>
                    match tyEq fuel (setA σ a (.undoableLinked sub cur)) sub osub with
                    | none => none
                    | some (r₁, σ₃) =>
                      match (if r₁ then tyEq fuel σ₃ sup osup
                             else some (false, σ₃)) with
                      | none => none
                      | some (r₂, σ₄) =>
                        match getA σ₄ a with
                        | some (.undoableLinked _ prev) =>
                          some (r₁ && r₂, setA σ₄ a prev)
                        | _ => none
                | none => some (false, σ)
              | none =>
                match mc₁.bind Constraint.getType, mc₂.bind Constraint.getType with
                | some t₁, some t₂ => tyEq fuel σ t₁ t₂
                | _, _ =>
                  match getA σ a, getA σ b with
                  | some ka, some kb =>
                    if ka.isLinked && kb.isLinked then
                      match ka.crack?, kb.crack? with
                      | some ta, some tb => tyEq fuel σ ta tb
                      | _, _ => none
                    else some (false, σ)
                  | _, _ => none
            | _, _ => none
        | _, _ => none
    | _, _ => none

/-- Modelled from the spec: structural equality of `Type` terms (its
`PartialEq` lives outside the sources in scope) — equal ground constants are
equal, nominal types compare name and parameter lists, free variables compare
through the cell algorithm above, and a linked free variable against another
term compares the linked term. -/
def tyEq : Nat → Store → Ty → Ty → Option (Bool × Store)
  | 0, _, _, _ => none
  | fuel + 1, σ, t₁, t₂ =>
    match t₁, t₂ with
    | .freeVar a, .freeVar b => freeEq fuel σ a b
    | .freeVar a, u =>
      match getA σ a with
      | some ka =>
        if ka.isLinked then
          match ka.crack? with
          | some ta => tyEq fuel σ ta u
          | none => none
        else some (false, σ)
      | none => none
    | u, .freeVar b =>
      match getA σ b with
      | some kb =>
        if kb.isLinked then
          match kb.crack? with
          | some tb => tyEq fuel σ u tb
          | none => none
        else some (false, σ)
      | none => none
    | .never, .never => some (true, σ)
    | .obj, .obj => some (true, σ)
    | .type', .type' => some (true, σ)
    | .poly n ps, .poly m qs =>
      if n = m then typListEq fuel σ ps qs else some (false, σ)
    | _, _ => some (false, σ)

/-- Modelled from the spec: equality of type parameters — carried types
compare as types, value literals compare as values. -/
def typEq : Nat → Store → TyP → TyP → Option (Bool × Store)
  | 0, _, _, _ => none
  | fuel + 1, σ, .typ t₁, .typ t₂ => tyEq fuel σ t₁ t₂
  | _ + 1, σ, .value n, .value m => some (n == m, σ)
  | _ + 1, σ, _, _ => some (false, σ)

/-- Modelled from the spec: pointwise equality of parameter lists,
short-circuiting on the first mismatch. -/
def typListEq : Nat → Store → List TyP → List TyP → Option (Bool × Store)
  | 0, _, _, _ => none
  | _ + 1, σ, [], [] => some (true, σ)
  | fuel + 1, σ, p :: ps, q :: qs =>
    match typEq fuel σ p q with
    | none => none
    | some (r, σ') =>
      if r then typListEq fuel σ' ps qs else some (false, σ')
  | _ + 1, σ, _, _ => some (false, σ)
end

/-- The S4 store: one named unbound cell whose sandwich constraint contains
the cell itself (`v = new_named_unbound(name, lev, Sandwiched(Never, Add(v)))`). -/
def cyclicStore (name : String) (lev : Level) : Store :=
  [(0, .namedUnbound name lev
      (.sandwiched .never (.poly "Add" [.typ (.freeVar 0)])))]

/-- Claim C9.  For a named unbound free variable whose sandwich constraint
contains the cell itself (here `sub = Never`, `sup = Add(v)`), the equality
check `v == v` terminates — it returns a definite answer within a fixed
recursion budget, independent of the cycle, because the walk is performed
under a temporary undoable link that breaks the cycle — and the answer is
true, with the store restored by the final `undo`. -/
theorem cyclic_self_eq_true (name : String) (lev : Level) :
    freeEq 12 (cyclicStore name lev) 0 0 = some (true, cyclicStore name lev) := by
  simp [freeEq, tyEq, typEq, typListEq, freeUnboundName, tyUnboundName,
    freeLevel, tyLevel, typLevel, typListLevel, freeConstraint, tyConstraint,
    getA, setA, cyclicStore, namesDiffer, levsDiffer,
    Constraint.getSubSup, Constraint.getType, FreeKind.isLinked, FreeKind.crack?]
